import Mathlib

/-!
Verification development for the pygomoku repository.

We give a shallow embedding of the board (`src/pygomoku/Board.py`) and of the
Monte Carlo tree search engine (`src/pygomoku/mcts/MCTS.py`) and prove the
specification claims about them.

Modelling conventions:
* Python ints are `Int`; Python `%` and `//` on ints are `Int.emod` and
  `Int.ediv` (both are Euclidean for positive divisors, exactly Python's
  semantics).
* The Python dict `Board.states` is an insertion-ordered association list
  (`List (Int × Int)`); assignment replaces in place or appends, `del`
  removes the entry, `.get(k, d)` is `dictGetD`.
* Fallible code (statements that can raise: `list.remove` on a missing
  element, `dict[k]` on a missing key, arithmetic on `None`, `max` of an
  empty sequence) is modelled with `Option`/an explicit error constructor;
  `none`/`.err` means "an exception is raised here".
* Python floats in the search tree are modelled as exact rationals `ℚ`.
-/

namespace Gomoku

/-! ### Python dict primitives (insertion-ordered association list) -/

/-- `d.get(k)` as an `Option`: the value stored under key `k`, if any. -/
def dictGet? (d : List (Int × Int)) (k : Int) : Option Int :=
  (d.find? (fun e => e.1 == k)).map Prod.snd

/-- `d.get(k, dflt)`. -/
def dictGetD (d : List (Int × Int)) (k dflt : Int) : Int :=
  (dictGet? d k).getD dflt

/-- `d[k] = v`: replace in place if the key exists, else append. -/
def dictSet (d : List (Int × Int)) (k v : Int) : List (Int × Int) :=
  match d with
  | [] => [(k, v)]
  | e :: rest => if e.1 == k then (k, v) :: rest else e :: dictSet rest k v

/-- `del d[k]` (the caller must know the key is present; we erase the
entry if it exists). -/
def dictErase (d : List (Int × Int)) (k : Int) : List (Int × Int) :=
  match d with
  | [] => []
  | e :: rest => if e.1 == k then rest else e :: dictErase rest k

/-- `k in d`. -/
def dictHasKey (d : List (Int × Int)) (k : Int) : Bool :=
  (dictGet? d k).isSome

/-! ### The board (`Board.py`) -/

/-- `Board.kPlayerWhite`. -/
def kPlayerWhite : Int := 0
/-- `Board.kPlayerBlack`. -/
def kPlayerBlack : Int := 1
/-- `Board.kEmpty`. -/
def kEmpty : Int := -1

/-- The mutable state of a `Board` object: `width`, `height`,
`numberToWin`, `__current_player`, `availables`, `moved`, `states`,
`__last_move`. -/
structure Board where
  width : Nat
  height : Nat
  numberToWin : Nat
  currentPlayer : Int
  availables : List Int
  moved : List Int
  states : List (Int × Int)
  lastMove : Option Int
deriving DecidableEq

/-- The board state `initBoard` produces (fresh dimensions, empty history,
Black to move).  `Board.initBoard` raises unless the dimensions can hold a
winning line; `mkBoard` is the state built on the non-raising path. -/
def mkBoard (w h n : Nat) : Board :=
  { width := w, height := h, numberToWin := n,
    currentPlayer := kPlayerBlack,
    availables := (List.range (w * h)).map Int.ofNat,
    moved := [], states := [], lastMove := none }

/-- `Board.initBoard` (with the default start player): raises
(`none`) when `width` or `height` is smaller than `numberToWin`. -/
def Board.initBoard (w h n : Nat) : Option Board :=
  if w < n ∨ h < n then none else some (mkBoard w h n)

/-- The result of `Board.play(move)`:
`ok b` — returned `True` with `b` the updated state;
`occupied b` — returned `False`, state untouched;
`err b` — `self.availables.remove(move)` raised `ValueError`, with `b`
the state at the moment of the raise (`states` already mutated). -/
inductive PlayResult where
  | ok (b : Board)
  | occupied (b : Board)
  | err (b : Board)
deriving DecidableEq

/-- `Board.play(move)`.  The source checks only `move in self.moved`;
on that path it returns `False`.  Otherwise it first executes
`self.states[move] = self.__current_player` and then
`self.availables.remove(move)`, which raises `ValueError` whenever
`move` is not in `availables` (e.g. any out-of-range move). -/
def Board.play (b : Board) (m : Int) : PlayResult :=
  if m ∈ b.moved then .occupied b
  else
    let b1 : Board := { b with states := dictSet b.states m b.currentPlayer }
    if m ∈ b1.availables then
      .ok { b1 with
            availables := b1.availables.erase m,
            moved := b1.moved ++ [m],
            currentPlayer := 1 - b1.currentPlayer,
            lastMove := some m }
    else
      .err b1

/-- `Board.undo()`.  Returns `False` when `moved` is empty; otherwise
deletes `states[last_move]` (`none` models the `KeyError`/`TypeError`
raised when `__last_move` is inconsistent with `states`), appends
`last_move` back to `availables`, pops `moved`, flips the player and
resets `__last_move` to the new history tail. -/
def Board.undo (b : Board) : Option (Board × Bool) :=
  if b.moved.isEmpty then some (b, false)
  else
    match b.lastMove with
    | none => none
    | some lm =>
      if dictHasKey b.states lm then
        let moved' := b.moved.dropLast
        some ({ b with
                states := dictErase b.states lm,
                availables := b.availables ++ [lm],
                moved := moved',
                currentPlayer := 1 - b.currentPlayer,
                lastMove := moved'.getLast? }, true)
      else none

/-- A Python value handed to `isValidMove`: an int, `None`, or any
non-int object. -/
inductive PyVal where
  | intVal (i : Int)
  | noneVal
  | otherVal
deriving DecidableEq

/-- `Board.isValidMove(move)`: `False` for any non-int (the
`isinstance` check), for out-of-range ints and for already-played
moves. -/
def Board.isValidMove (b : Board) (v : PyVal) : Bool :=
  match v with
  | .intVal m =>
    if m < 0 ∨ ((b.width * b.height : Nat) : Int) ≤ m then false
    else if m ∈ b.moved then false
    else true
  | _ => false

/-- `Board.moveToLocation(move)`: `None` for `None` input or an
out-of-range move, else `[move // width, move % width]` (modelled as a
pair). -/
def Board.moveToLocation (b : Board) (mv : Option Int) : Option (Int × Int) :=
  match mv with
  | none => none
  | some m =>
    if m < 0 ∨ ((b.width * b.height : Nat) : Int) ≤ m then none
    else some (m / (b.width : Int), m % (b.width : Int))

/-- `Board.locationToMove(location)`: `None` for `None` or a list whose
length is not 2; otherwise computes `move = h_index * width + w_index`
and range-checks only that flattened index. -/
def Board.locationToMove (b : Board) (loc : Option (List Int)) : Option Int :=
  match loc with
  | none => none
  | some [h, w] =>
    let move := h * (b.width : Int) + w
    if move < 0 ∨ ((b.width * b.height : Nat) : Int) ≤ move then none
    else some move
  | some _ => none

/-! ### Win detection (`fastGetWinner` / `getWinner`)

Both functions share, per candidate move, the same four expansion loops
(horizontal, vertical, main diagonal, anti/"deputy" diagonal).  Each
`while` loop extends a boundary while the probed neighbour cell holds the
candidate's colour and (for the row-sensitive axes) the boundary has not
wrapped across a row, tested with `% width`.  A loop iteration consumes a
distinct key of `states` holding the candidate's colour, so a loop can run
at most `states.length` times; the explicit `fuel` argument (always
instantiated with `states.length + 1`) therefore never exhausts on any
board whose stored values are player colours, and the functions agree with
the Python loops exactly. -/

/-- One `while` loop of the win scan.  Starting from boundary `bd`, while
`states.get(probe bd, kEmpty) == player and cond bd`, step the boundary by
`step`.  Returns the final boundary together with the number of
iterations (the `count` increments of the source). -/
def scanLoop (states : List (Int × Int)) (player : Int) (probe : Int → Int)
    (cond : Int → Bool) (step : Int) : Nat → Int → Int × Nat
  | 0, bd => (bd, 0)
  | fuel + 1, bd =>
    if dictGetD states (probe bd) kEmpty == player && cond bd then
      let r := scanLoop states player probe cond step fuel (bd + step)
      (r.1, r.2 + 1)
    else (bd, 0)

/-- The four direction checks shared by `fastGetWinner` and `getWinner`,
expanding around the cell `origin` with colour `player`; `true` iff some
direction reaches an interval/count of at least `nWin`.  In
`getWinner` the origin is the candidate move `m` itself; in
`fastGetWinner` the source writes `self.__last_move` instead. -/
def checkDirections (states : List (Int × Int)) (w : Int) (nWin : Nat)
    (player : Int) (origin : Int) : Bool :=
  let fuel := states.length + 1
  -- Horizontal: interval [left_bd, right_bd)
  let lb := (scanLoop states player (fun x => x - 1)
      (fun x => x % w != 0) (-1) fuel origin).1
  let rb := (scanLoop states player (fun x => x)
      (fun x => x % w != 0) 1 fuel (origin + 1)).1
  if rb - lb ≥ (nWin : Int) then true
  else
    -- Vertical: count = 1 + extensions on both sides
    let vl := (scanLoop states player (fun x => x - w)
        (fun _ => true) (-w) fuel origin).2
    let vr := (scanLoop states player (fun x => x)
        (fun _ => true) w fuel (origin + w)).2
    if 1 + vl + vr ≥ nWin then true
    else
      -- Main diagonal
      let dl := (scanLoop states player (fun x => x - 1 - w)
          (fun x => x % w != 0) (-(w + 1)) fuel origin).2
      let dr := (scanLoop states player (fun x => x)
          (fun x => x % w != 0) (w + 1) fuel (origin + w + 1)).2
      if 1 + dl + dr ≥ nWin then true
      else
        -- Deputy (anti-) diagonal
        let al := (scanLoop states player (fun x => x + 1 - w)
            (fun x => x % w != (w - 1)) (-(w - 1)) fuel origin).2
        let ar := (scanLoop states player (fun x => x)
            (fun x => x % w != (w - 1)) (w - 1) fuel (origin + w - 1)).2
        decide (1 + al + ar ≥ nWin)

/-- The candidate loop shared by the two winner functions: for each
candidate `m`, read `self.states[m]` (a raising dict access: `none`
models the `KeyError`) and run the four direction checks around
`origin m`; the first winning candidate's colour is returned.
`some none` means the Python function returned `None`. -/
def winScan (states : List (Int × Int)) (w : Int) (nWin : Nat)
    (origin : Int → Int) : List Int → Option (Option Int)
  | [] => some none
  | m :: rest =>
    match dictGet? states m with
    | none => none
    | some pl =>
      if checkDirections states w nWin pl (origin m) then some (some pl)
      else winScan states w nWin origin rest

/-- `Board.fastGetWinner`: guarded by `len(moved) < 2*numberToWin - 1`;
iterates over `self.moved[::-1][:2]` (the last two moves), but every
direction expansion starts from `self.__last_move`, not from the
candidate `m` (only the colour `self.states[m]` comes from the
candidate).  `none` models the `TypeError` raised when `__last_move`
is `None` yet `moved` is long enough. -/
def Board.fastGetWinner (b : Board) : Option (Option Int) :=
  if b.moved.length < 2 * b.numberToWin - 1 then some none
  else
    match b.lastMove with
    | none => none
    | some lm =>
      winScan b.states (b.width : Int) b.numberToWin (fun _ => lm)
        (b.moved.reverse.take 2)

/-- `Board.getWinner`: the full historical scan — the same guard and the
same per-candidate direction checks, but over all of `self.moved[::-1]`
and expanding around each candidate move `m` itself. -/
def Board.getWinner (b : Board) : Option (Option Int) :=
  if b.moved.length < 2 * b.numberToWin - 1 then some none
  else
    winScan b.states (b.width : Int) b.numberToWin (fun m => m)
      b.moved.reverse

/-- `Board.gameEnd()`: `(True, winner)` if `fastGetWinner` finds one,
`(True, None)` when the board is full, else `(False, None)`. -/
def Board.gameEnd (b : Board) : Option (Bool × Option Int) :=
  match b.fastGetWinner with
  | none => none
  | some (some wn) => some (true, some wn)
  | some none =>
    if b.availables.isEmpty then some (true, none) else some (false, none)

/-! ### Reachable-state invariant and play sequences -/

/-- The consistency invariant of a board reachable through
`initBoard`/`play`/`undo` (the spec's §3 invariants): no duplicate
history, `states` keyed exactly by `moved` in order, `availables` a
duplicate-free enumeration of the unplayed in-range cells,
`lastMove` the history tail, and the cell-count bookkeeping. -/
def Board.Wf (b : Board) : Prop :=
  b.moved.Nodup ∧
  b.states.map Prod.fst = b.moved ∧
  b.availables.Nodup ∧
  (∀ x ∈ b.availables, 0 ≤ x ∧ x < ((b.width * b.height : Nat) : Int) ∧ x ∉ b.moved) ∧
  (∀ n ∈ List.range (b.width * b.height), (n : Int) ∉ b.moved → (n : Int) ∈ b.availables) ∧
  b.lastMove = b.moved.getLast? ∧
  b.availables.length + b.moved.length = b.width * b.height

instance (b : Board) : Decidable b.Wf := by
  unfold Board.Wf; infer_instance

/-- Equality of the observable board state as the spec compares it:
dimensions, `cells` (`states`), history, player and last move equal, and
`availableMoves` equal *as a set* (Python `play`/`undo` preserve the
available set but permute the list). -/
def StateEq (x y : Board) : Prop :=
  x.width = y.width ∧ x.height = y.height ∧ x.numberToWin = y.numberToWin ∧
  x.currentPlayer = y.currentPlayer ∧ x.states = y.states ∧
  x.moved = y.moved ∧ x.lastMove = y.lastMove ∧
  (∀ z : Int, z ∈ x.availables ↔ z ∈ y.availables)

/-- Play a sequence of moves, requiring every call to succeed
(`play` returned `True`). -/
def playList : Board → List Int → Option Board
  | b, [] => some b
  | b, m :: ms =>
    match b.play m with
    | .ok b' => playList b' ms
    | _ => none

/-- Call `undo()` `n` times, requiring every call to succeed. -/
def undoTimes : Board → Nat → Option Board
  | b, 0 => some b
  | b, n + 1 =>
    match b.undo with
    | some (b', true) => undoTimes b' n
    | _ => none

/-! ### Concrete boards used as evaluation inputs -/

/-- A fresh 5×5 board with `numberToWin = 5`. -/
def b5 : Board := mkBoard 5 5 5

/-- A fresh 15×15 board with `numberToWin = 5` (the source defaults). -/
def b15 : Board := mkBoard 15 15 5

/-- `b5` after Black has played move 0 (White to move). -/
def bOcc : Board :=
  { b5 with
    states := [(0, kPlayerBlack)]
    availables := b5.availables.erase 0
    moved := [0]
    currentPlayer := kPlayerWhite
    lastMove := some 0 }

/-- Ten legal alternating moves on `b15`: Black takes 0, 1, 3, 4, 5 on
row 0, White takes 45, 46, 48, 49 on row 3 and finally the gap 2 on
row 0.  No player ever has five contiguous stones in a line. -/
def c3Moves : List Int := [0, 45, 1, 46, 3, 48, 4, 49, 5, 2]

/-- The board reached by playing `c3Moves` on `b15`. -/
def bC3 : Board := (playList b15 c3Moves).getD b15

/-! ### Search-tree nodes (`MCTSTreeNode`)

The Python node carries both a parent back-pointer (walked upward by
`backPropagation`) and a child dict (walked downward by `_playout`).  We
embed the two traversals over two views of the same data: `SNode`/a parent
chain (a node followed by its ancestors up to the root) for the
backpropagation claims, and the rooted tree `GTree` for the search claims.
The node statistics and their update are the same in both views.
`_U` is recomputed from scratch inside `evaluate` before every use, so it
is modelled as a derived value rather than a stored field, and the Python
floats are modelled as exact rationals. -/

/-- The statistics of one `MCTSTreeNode`: `_vis_times`, `_Q`, `_P`. -/
structure SNode where
  visTimes : Nat
  q : ℚ
  p : ℚ
deriving DecidableEq

/-- `MCTSTreeNode.update(bp_value)`: increment `_vis_times`, then
`_Q += (bp_value - _Q) / _vis_times` with the already-incremented
count. -/
def SNode.update (s : SNode) (v : ℚ) : SNode :=
  let n := s.visTimes + 1
  { s with visTimes := n, q := s.q + (v - s.q) / (n : ℚ) }

/-- `MCTSTreeNode.backPropagation(bp_value)` acting on the chain from a
node up to the root: update the node, then recurse on the parent with
the negated value. -/
def backPropagation (v : ℚ) : List SNode → List SNode
  | [] => []
  | s :: ps => s.update v :: backPropagation (-v) ps

/-! ### The search tree and the pure MCTS engine (`class MCTS`) -/

/-- A search (sub)tree: the root node's `_vis_times`, `_Q`, `_P` and its
child dict (insertion-ordered association list from action to
subtree). -/
inductive GTree where
  | node (visTimes : Nat) (q : ℚ) (p : ℚ) (children : List (Int × GTree))

/-- `_vis_times` of the root of a subtree. -/
def GTree.visTimes : GTree → Nat
  | .node v _ _ _ => v

/-- `_Q` of the root of a subtree. -/
def GTree.qVal : GTree → ℚ
  | .node _ q _ _ => q

/-- `_P` of the root of a subtree. -/
def GTree.prior : GTree → ℚ
  | .node _ _ p _ => p

/-- The child dict of the root of a subtree. -/
def GTree.children : GTree → List (Int × GTree)
  | .node _ _ _ c => c

/-- `MCTSTreeNode.update` on the tree view (same statistics update as
`SNode.update`). -/
def GTree.updateNode : GTree → ℚ → GTree
  | .node v q p c, val => .node (v + 1) (q + (val - q) / ((v + 1 : Nat) : ℚ)) p c

/-- `MCTSTreeNode.evaluate(weight_c)` for a child whose parent has
`parentVis` visits: `_Q + weight_c * (_P * sqrt(parentVis) / (1 +
_vis_times))`.  `np.sqrt` is an external numeric primitive, supplied as
the function parameter `sqrtFn`. -/
def GTree.evaluate (sqrtFn : Nat → ℚ) (weightC : ℚ) (parentVis : Nat)
    (t : GTree) : ℚ :=
  t.qVal + weightC * (t.prior * sqrtFn parentVis / (1 + (t.visTimes : ℚ)))

/-- Python's `max(xs, key=key)`: the first element attaining the
maximum (later elements replace the best only when strictly greater);
`none` models the `ValueError` on an empty sequence. -/
def maxByKey {α β : Type} [LinearOrder β] (key : α → β) : List α → Option α
  | [] => none
  | x :: xs => some (xs.foldl (fun best y => if key best < key y then y else best) x)

/-- `MCTSTreeNode.select(weight_c)`: the child maximising `evaluate`. -/
def GTree.selectChild (sqrtFn : Nat → ℚ) (weightC : ℚ) (t : GTree) :
    Option (Int × GTree) :=
  maxByKey (fun ac => GTree.evaluate sqrtFn weightC t.visTimes ac.2) t.children

/-- `MCTSTreeNode.expand(action_priors)`: add a fresh child (0 visits,
`Q = 0`, the supplied prior) for every action not already present. -/
def GTree.expand (t : GTree) (priors : List (Int × ℚ)) : GTree :=
  match t with
  | .node v q p cs =>
    .node v q p (priors.foldl
      (fun acc ap =>
        if acc.any (fun e => e.1 == ap.1) then acc
        else acc ++ [(ap.1, .node 0 0 ap.2 [])]) cs)

/-- Replace the subtree stored under action `a` (the in-place mutation of
the child the descent selected). -/
def replaceChild (cs : List (Int × GTree)) (a : Int) (c' : GTree) :
    List (Int × GTree) :=
  cs.map (fun e => if e.1 == a then (a, c') else e)

/-- The parameters of a constructed `MCTS` object: the two injected
policy functions, the `np.sqrt` primitive, `_weight_c`,
`_compute_budget` and `_expand_bound`. -/
structure MCTSCfg where
  expandPolicy : Board → List (Int × ℚ) × ℚ
  rolloutPolicy : Board → List (Int × ℚ)
  sqrtFn : Nat → ℚ
  weightC : ℚ
  computeBudget : Nat
  expandBound : Nat

namespace MCTS

/-- The `for _ in range(limit)` loop of `MCTS._evaluateRollout`: each
iteration checks `gameEnd` (breaking with the winner), then plays the
rollout-policy move with the highest probability.  When the fuel runs
out the last binding of `winner_color` came from a `(False, None)`
`gameEnd` result, so the value falls back to a draw.  `none` models a
raised exception (`gameEnd`/`max`/`play` raising). -/
def rolloutLoop (cfg : MCTSCfg) : Nat → Board → Option (Board × Option Int)
  | 0, b => some (b, none)
  | fuel + 1, b =>
    match b.gameEnd with
    | none => none
    | some (true, winner) => some (b, winner)
    | some (false, _) =>
      match maxByKey (fun ap => ap.2) (cfg.rolloutPolicy b) with
      | none => none
      | some ap =>
        match b.play ap.1 with
        | .ok b' => rolloutLoop cfg fuel b'
        | .occupied b' => rolloutLoop cfg fuel b'
        | .err _ => none

/-- `MCTS._evaluateRollout(state)` (default `limit = 1000`): run the
rollout from `b` and score the final winner from the perspective of the
player to move at `b`: `+1` if they won, `-1` if the opponent won, `0`
for no winner. -/
def evaluateRollout (cfg : MCTSCfg) (b : Board) : Option (Board × Int) :=
  match rolloutLoop cfg 1000 b with
  | none => none
  | some (b', winner) =>
    some (b', match winner with
      | none => 0
      | some wn => if wn == b.currentPlayer then 1 else -1)

/-- `MCTS._playout(state)`: descend through `select`, replaying each
selected action into the (caller-supplied) board; at the leaf, query the
expansion policy, expand unless the game has ended or the leaf is below
`_expand_bound`, evaluate by rollout, and backpropagate the negated
value from the leaf to the root of the descended path.  The result
carries the updated tree, the mutated board and the value the subtree
root was updated with (its parent must apply the negation).  The fuel
argument only bounds the descent depth; the Python loop needs none
because the tree is finite and acyclic. -/
def playoutDescend (cfg : MCTSCfg) : Nat → GTree → Board →
    Option (GTree × Board × ℚ)
  | fuel, t, b =>
    if t.children.isEmpty then
      let ap := (cfg.expandPolicy b).1
      match b.gameEnd with
      | none => none
      | some (isEnd, _) =>
        let t1 := if !isEnd && decide (cfg.expandBound ≤ t.visTimes) then
          t.expand ap else t
        match evaluateRollout cfg b with
        | none => none
        | some (b', bpValue) =>
          some (t1.updateNode (-(bpValue : ℚ)), b', -(bpValue : ℚ))
    else
      match fuel with
      | 0 => none
      | fuel' + 1 =>
        match t.selectChild cfg.sqrtFn cfg.weightC with
        | none => none
        | some (a, child) =>
          match (match b.play a with
                 | .ok b' => some b'
                 | .occupied b' => some b'
                 | .err _ => none) with
          | none => none
          | some b1 =>
            match playoutDescend cfg fuel' child b1 with
            | none => none
            | some (child', b2, v) =>
              match t with
              | .node tv tq tp tcs =>
                some ((GTree.node tv tq tp (replaceChild tcs a child')).updateNode (-v),
                  b2, -v)

/-- `copy.deepcopy(board)`: an equal board sharing no mutable state with
the original.  Under the embedding's value semantics the copy is the
same value. -/
def deepcopy (b : Board) : Board := b

/-- The playout loop of `MCTS.getMove`: `_compute_budget` iterations,
each running `_playout` on a fresh deep copy of the caller's board and
discarding that copy afterwards. -/
def playoutLoop (cfg : MCTSCfg) (fuel : Nat) (b : Board) :
    Nat → GTree → Option GTree
  | 0, t => some t
  | n + 1, t =>
    match playoutDescend cfg fuel t (deepcopy b) with
    | none => none
    | some (t', _, _) => playoutLoop cfg fuel b n t'

/-- `MCTS.getMove(state)`: on an empty board return
`len(state.availables) // 2` immediately (no playout); otherwise run the
budgeted playouts on deep copies of the board and return the root child
with the most visits.  The result pairs the returned action and the
final tree with the caller's board as it stands after the call. -/
def getMove (cfg : MCTSCfg) (fuel : Nat) (t : GTree) (b : Board) :
    Option ((Int × GTree) × Board) :=
  if b.moved.isEmpty then
    some (((b.availables.length : Int) / 2, t), b)
  else
    match playoutLoop cfg fuel b cfg.computeBudget t with
    | none => none
    | some t' =>
      match maxByKey (fun ac => (ac.2).visTimes) t'.children with
      | none => none
      | some ac => some ((ac.1, t'), b)

end MCTS

/-- The fresh single-node tree `MCTSTreeNode(None, 1.0)` the engine is
constructed with. -/
def t0 : GTree := .node 0 0 1 []

/-- A concrete engine configuration used to evaluate the search claims:
uniform priors over the available moves for both policies, a zero
`sqrt` stub, `weight_c = 5`, one playout, `expand_bound = 0`. -/
def cfgW : MCTSCfg :=
  { expandPolicy := fun bd => (bd.availables.map (fun m => (m, (1 : ℚ))), 0)
    rolloutPolicy := fun bd => bd.availables.map (fun m => (m, (1 : ℚ)))
    sqrtFn := fun _ => 0
    weightC := 5
    computeBudget := 1
    expandBound := 0 }

/-- A 3×3 board with `numberToWin = 3` on which Black has played the
corner 0 (a small non-empty search input). -/
def b3a : Board :=
  { mkBoard 3 3 3 with
    states := [(0, kPlayerBlack)]
    availables := (mkBoard 3 3 3).availables.erase 0
    moved := [0]
    currentPlayer := kPlayerWhite
    lastMove := some 0 }

/-! ## Theorems -/

/-- C1 counterexample: on a fresh 5×5 board the out-of-range move `-1` is
not rejected: `play` writes the move into `states` and then raises
`ValueError` (the `.err` result) instead of returning `False` with the
state unchanged. -/
theorem play_out_of_range_raises_cex :
    b5.play (-1) = PlayResult.err { b5 with states := [((-1 : Int), kPlayerBlack)] } ∧
    ({ b5 with states := [((-1 : Int), kPlayerBlack)] } : Board).states ≠ b5.states := by
  decide

/-- C1 (amended): `play` returns `False` and leaves the board untouched
exactly for already-occupied moves; an out-of-range move on a consistent
board is instead recorded in `states` and then `availables.remove`
raises `ValueError`, leaving `states` mutated. -/
theorem play_occupied_noop_out_of_range_raises (b : Board) (m : Int) :
    (m ∈ b.moved → b.play m = .occupied b) ∧
    (b.Wf → m ∉ b.moved → (m < 0 ∨ ((b.width * b.height : Nat) : Int) ≤ m) →
      b.play m = .err { b with states := dictSet b.states m b.currentPlayer }) := by
  constructor
  · intro hm
    simp [Board.play, hm]
  · intro hwf hm hrange
    have hna : m ∉ b.availables := by
      intro hmem
      obtain ⟨-, -, -, h4, -⟩ := hwf
      obtain ⟨h0, hlt, -⟩ := h4 m hmem
      rcases hrange with h | h <;> omega
    simp [Board.play, hm, hna]

/-- C1 witness: the amended statement evaluated on `bOcc` (move 0 already
occupied) and on the fresh board `b5` with the out-of-range move `-1`. -/
theorem play_occupied_noop_out_of_range_raises_witness :
    bOcc.play 0 = PlayResult.occupied bOcc ∧
    b5.play (-1) = PlayResult.err { b5 with states := dictSet b5.states (-1) b5.currentPlayer } :=
  ⟨(play_occupied_noop_out_of_range_raises bOcc 0).1 (by decide),
   (play_occupied_noop_out_of_range_raises b5 (-1)).2 (by decide) (by decide) (by decide)⟩

/-- C2 (code bug): on the reachable board `bC3` the candidate list of
`fastGetWinner` is `[2, 5]` and candidate 5 belongs to Black, yet the
direction expansion around candidate 5's own cell finds no
`winLength` interval, while the code's expansion around
`__last_move = 2` (White's stone) with Black's colour does — so
`fastGetWinner` declares Black the winner even though Black has no five
contiguous stones.  The expansion origin is `__last_move`, not the
candidate's own position as the specification describes. -/
theorem fastGetWinner_origin_bug :
    bC3.lastMove = some 2 ∧
    bC3.moved.reverse.take 2 = [2, 5] ∧
    dictGet? bC3.states 5 = some kPlayerBlack ∧
    checkDirections bC3.states (15 : Int) 5 kPlayerBlack 5 = false ∧
    checkDirections bC3.states (15 : Int) 5 kPlayerBlack 2 = true ∧
    bC3.fastGetWinner = some (some kPlayerBlack) := by
  decide

set_option maxRecDepth 8000 in
/-- C3 (code bug): `bC3` is reachable from a fresh 15×15 board by ten
successful `play` calls, yet the incremental check returns Black while
the full historical scan returns no winner. -/
theorem fastGetWinner_getWinner_disagree :
    playList b15 c3Moves = some bC3 ∧
    bC3.fastGetWinner = some (some kPlayerBlack) ∧
    bC3.getWinner = some none := by
  decide

/-- C4 counterexample: the column index 5 is out of range on the 5-wide
board `b5`, yet `locationToMove([0, 5])` returns `5` (aliasing to row 1,
column 0) instead of the claimed `None`. -/
theorem locationToMove_out_of_range_col_cex :
    (b5.width : Int) ≤ 5 ∧ b5.locationToMove (some [0, 5]) = some 5 := by
  decide

/-- C4 (amended): `locationToMove` returns `None` exactly when the
flattened index `row*width + col` falls outside `[0, width*height)` (an
out-of-range column whose flattened index is in range is accepted and
aliases into another row); `moveToLocation` returns `None` exactly for
out-of-range move indices, and any location it does return is within the
board bounds, so neither conversion can index out of bounds. -/
theorem coordinate_conversion_amended (b : Board) (r c m : Int)
    (hw : 0 < b.width) :
    (b.locationToMove (some [r, c]) = none ↔
      (r * (b.width : Int) + c < 0 ∨
        ((b.width * b.height : Nat) : Int) ≤ r * (b.width : Int) + c)) ∧
    (b.moveToLocation (some m) = none ↔
      (m < 0 ∨ ((b.width * b.height : Nat) : Int) ≤ m)) ∧
    (∀ ri ci : Int, b.moveToLocation (some m) = some (ri, ci) →
      0 ≤ ri ∧ ri < (b.height : Int) ∧ 0 ≤ ci ∧ ci < (b.width : Int)) := by
  refine ⟨?_, ?_, ?_⟩
  · simp only [Board.locationToMove]
    split <;> simp_all
  · simp only [Board.moveToLocation]
    split <;> simp_all
  · intro ri ci hsome
    simp only [Board.moveToLocation] at hsome
    split at hsome
    · exact absurd hsome (by simp)
    · have hwI : (0 : Int) < (b.width : Int) := by exact_mod_cast hw
      rename_i hcond
      push_neg at hcond
      obtain ⟨hm0, hmlt⟩ := hcond
      have hpair : ri = m / (b.width : Int) ∧ ci = m % (b.width : Int) := by
        have := Option.some.inj hsome
        exact ⟨(congrArg Prod.fst this).symm, (congrArg Prod.snd this).symm⟩
      obtain ⟨hri, hci⟩ := hpair
      subst hri hci
      have hmod0 : (0 : Int) ≤ m % (b.width : Int) :=
        Int.emod_nonneg m (ne_of_gt hwI)
      have hmodlt : m % (b.width : Int) < (b.width : Int) :=
        Int.emod_lt_of_pos m hwI
      have hdiv0 : (0 : Int) ≤ m / (b.width : Int) :=
        Int.ediv_nonneg hm0 (le_of_lt hwI)
      refine ⟨hdiv0, ?_, hmod0, hmodlt⟩
      have heq : (b.width : Int) * (m / (b.width : Int)) + m % (b.width : Int) = m :=
        Int.ediv_add_emod m (b.width : Int)
      have hwh : ((b.width * b.height : Nat) : Int) = (b.width : Int) * (b.height : Int) := by
        push_cast; ring
      by_contra hge
      push_neg at hge
      have : (b.width : Int) * (b.height : Int) ≤ (b.width : Int) * (m / (b.width : Int)) :=
        mul_le_mul_of_nonneg_left hge (le_of_lt hwI)
      omega

/-- C4 witness: the amended statement evaluated at `b5` with the
out-of-range move 27, which converts to no location. -/
theorem coordinate_conversion_amended_witness :
    b5.moveToLocation (some 27) = none :=
  ((coordinate_conversion_amended b5 0 0 27 (by decide)).2.1).mpr (by decide)

/-- C10: `isValidMove` returns `False` (rather than raising) on every
non-int input, and `moveToLocation` maps `None` to `None`: the query
interface is total on these malformed inputs. -/
theorem board_queries_total_on_malformed (b : Board) (v : PyVal)
    (hv : ∀ i : Int, v ≠ PyVal.intVal i) :
    b.isValidMove v = false ∧ b.moveToLocation none = none := by
  cases v with
  | intVal i => exact absurd rfl (hv i)
  | noneVal => exact ⟨rfl, rfl⟩
  | otherVal => exact ⟨rfl, rfl⟩

/-- C10 witness: the statement evaluated at `b5` with the input `None`. -/
theorem board_queries_total_on_malformed_witness :
    b5.isValidMove PyVal.noneVal = false ∧ b5.moveToLocation none = none :=
  board_queries_total_on_malformed b5 PyVal.noneVal (fun _ h => by cases h)

/-! ### Play/undo inverse machinery -/

theorem stateEq_refl (b : Board) : StateEq b b :=
  ⟨rfl, rfl, rfl, rfl, rfl, rfl, rfl, fun _ => Iff.rfl⟩

theorem dictSet_fresh (d : List (Int × Int)) (k v : Int)
    (h : k ∉ d.map Prod.fst) : dictSet d k v = d ++ [(k, v)] := by
  induction d with
  | nil => rfl
  | cons e rest ih =>
    have h1 : ¬(e.1 = k) := fun hh => h (by simp [hh])
    have h2 : k ∉ rest.map Prod.fst := fun hh => h (by simp [hh])
    simp only [dictSet]
    rw [if_neg (by simpa using h1), ih h2]
    simp

theorem dictErase_append_fresh (d : List (Int × Int)) (k v : Int)
    (h : k ∉ d.map Prod.fst) : dictErase (d ++ [(k, v)]) k = d := by
  induction d with
  | nil => simp [dictErase]
  | cons e rest ih =>
    have h1 : ¬(e.1 = k) := fun hh => h (by simp [hh])
    have h2 : k ∉ rest.map Prod.fst := fun hh => h (by simp [hh])
    simp only [List.cons_append, dictErase]
    rw [if_neg (by simpa using h1), List.append_eq, ih h2]

theorem dictHasKey_append_self (d : List (Int × Int)) (k v : Int) :
    dictHasKey (d ++ [(k, v)]) k = true := by
  induction d with
  | nil => simp [dictHasKey, dictGet?]
  | cons e rest ih =>
    simp only [dictHasKey, dictGet?, List.cons_append, List.find?] at ih ⊢
    cases he : (e.1 == k) with
    | true => simp
    | false => simp only [Bool.false_eq_true, if_false]; exact ih

theorem play_ok_elim {b : Board} {m : Int} {b' : Board}
    (h : b.play m = .ok b') :
    m ∉ b.moved ∧ m ∈ b.availables ∧
    b' = { b with
           states := dictSet b.states m b.currentPlayer,
           availables := b.availables.erase m,
           moved := b.moved ++ [m],
           currentPlayer := 1 - b.currentPlayer,
           lastMove := some m } := by
  by_cases hm : m ∈ b.moved
  · simp [Board.play, hm] at h
  · by_cases ha : m ∈ b.availables
    · refine ⟨hm, ha, ?_⟩
      simp [Board.play, hm, ha] at h
      exact h.symm
    · simp [Board.play, hm, ha] at h

theorem play_ok_Wf {b : Board} {m : Int} {b' : Board}
    (hwf : b.Wf) (h : b.play m = .ok b') : b'.Wf := by
  obtain ⟨hm, ha, hb⟩ := play_ok_elim h
  obtain ⟨w1, w2, w3, w4, w5, w6, w7⟩ := hwf
  subst hb
  refine ⟨?_, ?_, ?_, ?_, ?_, ?_, ?_⟩
  · simp [List.nodup_append, w1, hm]
  · have hfresh : m ∉ b.states.map Prod.fst := by rw [w2]; exact hm
    show (dictSet b.states m b.currentPlayer).map Prod.fst = b.moved ++ [m]
    rw [dictSet_fresh _ _ _ hfresh]
    simp [w2]
  · exact w3.erase m
  · intro x hx
    have hx' : x ∈ b.availables := List.mem_of_mem_erase hx
    obtain ⟨p1, p2, p3⟩ := w4 x hx'
    have hxm : x ≠ m := ((w3.mem_erase_iff).mp hx).1
    refine ⟨p1, p2, ?_⟩
    simp only [List.mem_append, List.mem_singleton]
    rintro (hc | hc)
    · exact p3 hc
    · exact hxm hc
  · intro n hn hnm
    have h1 : (n : Int) ∉ b.moved := fun hh => hnm (List.mem_append_left _ hh)
    have h2 : (n : Int) ≠ m := fun hh => hnm (by simp [hh])
    exact (List.mem_erase_of_ne h2).mpr (w5 n hn h1)
  · show some m = (b.moved ++ [m]).getLast?
    simp [List.getLast?_concat]
  · show (b.availables.erase m).length + (b.moved ++ [m]).length = b.width * b.height
    have hlen := List.length_erase_of_mem ha
    have hpos : 0 < b.availables.length := List.length_pos.mpr (List.ne_nil_of_mem ha)
    simp only [hlen, List.length_append, List.length_singleton]
    omega

theorem undo_after_play {b : Board} {m : Int} {b1 b2 : Board}
    (hwf : b.Wf) (hp : b.play m = .ok b1) (hs : StateEq b2 b1) :
    ∃ b3, b2.undo = some (b3, true) ∧ StateEq b3 b := by
  obtain ⟨hm, ha, hb⟩ := play_ok_elim hp
  obtain ⟨w1, w2, w3, w4, w5, w6, w7⟩ := hwf
  obtain ⟨e1, e2, e3, e4, e5, e6, e7, e8⟩ := hs
  subst hb
  have hmv : b2.moved = b.moved ++ [m] := e6
  have hlm : b2.lastMove = some m := e7
  have hfresh : m ∉ b.states.map Prod.fst := by rw [w2]; exact hm
  have hst : b2.states = b.states ++ [(m, b.currentPlayer)] := by
    rw [e5]; exact dictSet_fresh _ _ _ hfresh
  have hkey : dictHasKey b2.states m = true := by
    rw [hst]; exact dictHasKey_append_self _ _ _
  have hne : b2.moved.isEmpty = false := by rw [hmv]; simp
  have hundo : b2.undo = some ({ b2 with
      states := dictErase b2.states m,
      availables := b2.availables ++ [m],
      moved := b2.moved.dropLast,
      currentPlayer := 1 - b2.currentPlayer,
      lastMove := (b2.moved.dropLast).getLast? }, true) := by
    simp [Board.undo, hne, hlm, hkey]
  refine ⟨_, hundo, ?_, ?_, ?_, ?_, ?_, ?_, ?_, ?_⟩
  · exact e1
  · exact e2
  · exact e3
  · show 1 - b2.currentPlayer = b.currentPlayer
    have : b2.currentPlayer = 1 - b.currentPlayer := e4
    omega
  · show dictErase b2.states m = b.states
    rw [hst]; exact dictErase_append_fresh _ _ _ hfresh
  · show b2.moved.dropLast = b.moved
    rw [hmv]; exact List.dropLast_concat ..
  · show (b2.moved.dropLast).getLast? = b.lastMove
    rw [hmv, List.dropLast_concat]
    exact w6.symm
  · intro z
    show z ∈ b2.availables ++ [m] ↔ z ∈ b.availables
    have hz : z ∈ b2.availables ↔ z ∈ b.availables.erase m := e8 z
    by_cases hzm : z = m
    · subst hzm
      simp [ha]
    · simp only [List.mem_append, List.mem_singleton, hz,
        List.mem_erase_of_ne hzm]
      tauto

theorem undoTimes_add (n k : Nat) : ∀ b : Board,
    undoTimes b (n + k) = (undoTimes b n).bind (fun b1 => undoTimes b1 k) := by
  induction n with
  | zero => intro b; simp [undoTimes]
  | succ n ih =>
    intro b
    have hrw : n + 1 + k = (n + k) + 1 := by omega
    rw [hrw]
    simp only [undoTimes]
    cases hu : b.undo with
    | none => rfl
    | some p =>
      obtain ⟨b', flag⟩ := p
      cases flag
      · rfl
      · exact ih b'

/-- C5: undoing a sequence of successful plays, one `undo()` per play,
restores the starting board exactly from any consistent (`Wf`) starting
state: same `states` dict, same history, same player, same last move,
and the same `availableMoves` as a set (the list is permuted, which is
why the comparison on `availables` is membership). -/
theorem play_undo_restores (ms : List Int) : ∀ b b' : Board, b.Wf →
    playList b ms = some b' →
    ∃ b'', undoTimes b' ms.length = some b'' ∧ StateEq b'' b := by
  induction ms with
  | nil =>
    intro b b' _ hp
    simp only [playList, Option.some.injEq] at hp
    subst hp
    exact ⟨b, rfl, stateEq_refl b⟩
  | cons m ms ih =>
    intro b b' hwf hp
    cases hpm : b.play m with
    | ok b1 =>
      simp only [playList, hpm] at hp
      have hwf1 := play_ok_Wf hwf hpm
      obtain ⟨b2, hu, hs⟩ := ih b1 b' hwf1 hp
      obtain ⟨b3, hu3, hs3⟩ := undo_after_play hwf hpm hs
      refine ⟨b3, ?_, hs3⟩
      have hlen : (m :: ms).length = ms.length + 1 := by simp
      rw [hlen, undoTimes_add ms.length 1 b', hu]
      simp only [Option.some_bind, undoTimes, hu3]
    | occupied b1 => simp [playList, hpm] at hp
    | err b1 => simp [playList, hpm] at hp

/-- C5 witness: playing `[0, 7]` on the fresh board `b5` and undoing
twice restores `b5`. -/
theorem play_undo_restores_witness :
    undoTimes ((playList b5 [0, 7]).get (by decide)) 2 =
      some ((undoTimes ((playList b5 [0, 7]).get (by decide)) 2).get (by decide)) ∧
    StateEq ((undoTimes ((playList b5 [0, 7]).get (by decide)) 2).get (by decide)) b5 := by
  obtain ⟨b'', h1, h2⟩ :=
    play_undo_restores [0, 7] b5 ((playList b5 [0, 7]).get (by decide)) (by decide)
      (Option.some_get (by decide)).symm
  have hb : ((undoTimes ((playList b5 [0, 7]).get (by decide)) 2).get (by decide)) = b'' :=
    Option.some.inj ((Option.some_get (by decide)).trans h1)
  exact ⟨(Option.some_get (by decide)).symm, hb ▸ h2⟩

/-! ### Backpropagation -/

/-- C6: `backPropagation(value)` along the chain from a node up to the
root: every node at depth `i` above the starting node receives exactly
one `update` with the value `(-1)^i * value` (the sign flips at every
level), and `update` itself increments the visit count by one and moves
`Q` by the incremental-mean step `(value - Q) / visitCount` with the
already-incremented count. -/
theorem backpropagation_sign_flips (chain : List SNode) (v : ℚ) (i : Nat) :
    (backPropagation v chain)[i]? =
      (chain[i]?).map (fun s => s.update ((-1 : ℚ) ^ i * v)) ∧
    (∀ s : SNode, (s.update v).visTimes = s.visTimes + 1 ∧
      (s.update v).q = s.q + (v - s.q) / ((s.visTimes + 1 : Nat) : ℚ)) := by
  constructor
  · induction chain generalizing v i with
    | nil => simp [backPropagation]
    | cons s ps ih =>
      cases i with
      | zero => simp [backPropagation]
      | succ i =>
        simp only [backPropagation, List.getElem?_cons_succ]
        rw [ih (-v) i]
        have hsgn : (-1 : ℚ) ^ i * (-v) = (-1 : ℚ) ^ (i + 1) * v := by ring
        rw [hsgn]
  · intro s
    exact ⟨rfl, rfl⟩

/-- One `update` keeps `Q` inside `[-1, 1]` when it starts there and the
backpropagated value lies in `[-1, 1]`: the new `Q` is a convex
combination of the old `Q` and the value. -/
theorem snode_update_bounds (s : SNode) (v : ℚ) (hq1 : -1 ≤ s.q) (hq2 : s.q ≤ 1)
    (hv1 : -1 ≤ v) (hv2 : v ≤ 1) :
    -1 ≤ (s.update v).q ∧ (s.update v).q ≤ 1 := by
  have hq' : (s.update v).q = s.q + (v - s.q) / ((s.visTimes + 1 : Nat) : ℚ) := rfl
  have hn1 : (1 : ℚ) ≤ ((s.visTimes + 1 : Nat) : ℚ) := by
    exact_mod_cast Nat.succ_le_succ (Nat.zero_le _)
  have hn0 : (0 : ℚ) < ((s.visTimes + 1 : Nat) : ℚ) := lt_of_lt_of_le one_pos hn1
  have ha0 : (0 : ℚ) < ((s.visTimes + 1 : Nat) : ℚ)⁻¹ := inv_pos.mpr hn0
  have ha1 : ((s.visTimes + 1 : Nat) : ℚ)⁻¹ ≤ 1 := inv_le_one_of_one_le₀ hn1
  rw [hq', div_eq_mul_inv]
  constructor
  · nlinarith [mul_nonneg (by linarith : (0 : ℚ) ≤ 1 + s.q)
        (by linarith : (0 : ℚ) ≤ 1 - ((s.visTimes + 1 : Nat) : ℚ)⁻¹),
      mul_nonneg (by linarith : (0 : ℚ) ≤ 1 + v) (le_of_lt ha0)]
  · nlinarith [mul_nonneg (by linarith : (0 : ℚ) ≤ 1 - s.q)
        (by linarith : (0 : ℚ) ≤ 1 - ((s.visTimes + 1 : Nat) : ℚ)⁻¹),
      mul_nonneg (by linarith : (0 : ℚ) ≤ 1 - v) (le_of_lt ha0)]

theorem q_bounded_foldl (vs : List ℚ) : (∀ v ∈ vs, -1 ≤ v ∧ v ≤ 1) →
    ∀ s : SNode, -1 ≤ s.q → s.q ≤ 1 →
    -1 ≤ (vs.foldl SNode.update s).q ∧ (vs.foldl SNode.update s).q ≤ 1 := by
  induction vs with
  | nil => intro _ s h1 h2; exact ⟨h1, h2⟩
  | cons v vs ih =>
    intro hbd s h1 h2
    obtain ⟨hv1, hv2⟩ := hbd v (List.mem_cons_self ..)
    obtain ⟨u1, u2⟩ := snode_update_bounds s v h1 h2 hv1 hv2
    simpa [List.foldl_cons] using
      ih (fun w hw => hbd w (List.mem_cons_of_mem _ hw)) (s.update v) u1 u2

/-- C7: a node starting from `Q = 0`, `visitCount = 0` keeps `Q` inside
`[-1, 1]` after arbitrarily many updates whose values lie in `[-1, 1]`
(in particular in `{-1, 0, 1}`). -/
theorem q_value_bounded (p : ℚ) (vs : List ℚ)
    (h : ∀ v ∈ vs, -1 ≤ v ∧ v ≤ 1) :
    -1 ≤ (vs.foldl SNode.update ⟨0, 0, p⟩).q ∧
      (vs.foldl SNode.update ⟨0, 0, p⟩).q ≤ 1 :=
  q_bounded_foldl vs h ⟨0, 0, p⟩ (by norm_num) (by norm_num)

/-- C7 witness: the bound evaluated on the update sequence `1, -1, 0`. -/
theorem q_value_bounded_witness :
    -1 ≤ (([1, -1, 0] : List ℚ).foldl SNode.update ⟨0, 0, 1⟩).q ∧
      (([1, -1, 0] : List ℚ).foldl SNode.update ⟨0, 0, 1⟩).q ≤ 1 :=
  q_value_bounded 1 [1, -1, 0] (by decide)

/-! ### Search frame and opening special case -/

/-- C8: `getMove` leaves the caller's board untouched: every playout
operates on a fresh deep copy (`deepcopy b`), so whenever `getMove`
returns, the board component of its result — the shared board as the
caller sees it afterwards — is exactly the input board. -/
theorem getMove_preserves_board (cfg : MCTSCfg) (fuel : Nat) (t : GTree)
    (b : Board) (out : (Int × GTree) × Board) (_hne : b.moved ≠ [])
    (h : MCTS.getMove cfg fuel t b = some out) : out.2 = b := by
  unfold MCTS.getMove at h
  split at h
  · cases h; rfl
  · split at h
    · exact absurd h (by simp)
    · split at h
      · exact absurd h (by simp)
      · cases h; rfl

/-- C8 witness: a full search (one playout with a rollout to a finished
game) on the non-empty 3×3 board `b3a` returns with the caller's board
unchanged. -/
theorem getMove_preserves_board_witness :
    ((MCTS.getMove cfgW 0 t0 b3a).get (by decide)).2 = b3a :=
  getMove_preserves_board cfgW 0 t0 b3a
    ((MCTS.getMove cfgW 0 t0 b3a).get (by decide))
    (by decide) (Option.some_get (by decide)).symm

/-- C9: on a board with zero stones played (and consistent bookkeeping,
so `len(availables) = width*height`), `getMove` returns the exact centre
index `(width*height) // 2` immediately, runs no playout and leaves the
search tree untouched. -/
theorem getMove_empty_board_center (cfg : MCTSCfg) (fuel : Nat) (t : GTree)
    (b : Board) (hwf : b.Wf) (he : b.moved = []) :
    MCTS.getMove cfg fuel t b =
      some ((((b.width * b.height / 2 : Nat) : Int), t), b) := by
  obtain ⟨-, -, -, -, -, -, w7⟩ := hwf
  have hlen : b.availables.length = b.width * b.height := by
    rw [he] at w7
    simpa using w7
  unfold MCTS.getMove
  rw [he, hlen]
  rfl

/-- C9 witness: on the fresh 5×5 board the engine answers the centre
cell 12 = (5*5)//2 with the tree unchanged. -/
theorem getMove_empty_board_center_witness :
    MCTS.getMove cfgW 0 t0 b5 =
      some ((((b5.width * b5.height / 2 : Nat) : Int), t0), b5) :=
  getMove_empty_board_center cfgW 0 t0 b5 (by decide) rfl

end Gomoku
